import Mathlib

/-!
# Verification of the timeline diff core (`src/components/ui/timeline.tsx`)

Strings are modelled as lists of characters (`Str`), matching the
code-unit-addressed view of JS strings.  JS truthiness of a string is
emptiness: `!s` holds exactly when `s` is the empty string.

The component calls the external `diff-match-patch-ts` library
(`diff_main`, `diff_cleanupSemantic`), whose sources are not part of this
repository; those two functions are modelled from the spec (see their doc
comments).  Everything else is translated directly from `timeline.tsx`.
-/

/-! ## Reconstruction helpers

`newSide`/`oldSide` read off the new (Equal+Insert) and old (Equal+Delete)
sides of a character edit script; `diffsNewText`/`diffsOldText` do the same
for grouped `[op, text]` tuples, and `eqInsText`/`eqDelText` for the
`Segment` records returned by `renderDiff`. -/

abbrev Str := List Char

/-- A diff segment as produced by `renderDiff`:
`{ operation: -1 | 0 | 1, text: string }` (timeline.tsx line 92). -/
structure Segment where
  operation : Int
  text : Str
deriving Repr, DecidableEq

/-- The summary returned by `calculateDiff`: `{ added, deleted }`
(timeline.tsx line 51). -/
structure Summary where
  added : Nat
  deleted : Nat
deriving Repr, DecidableEq

/-- Number of non-equal entries in a character-level edit script. -/
def editCount (l : List (Int × Char)) : Nat :=
  l.countP (fun d => d.1 ≠ 0)

/-- Modelled from the spec: the core of diff-match-patch's `diff_main`
(the library is an external dependency, not part of this repository's
sources).  Per the spec it "computes a character-level diff using a
longest-common-subsequence-based algorithm".  This is the textbook
LCS-based character edit script: keep equal characters, otherwise take
whichever of delete-first / insert-first yields fewer edits. -/
def charEdits : Str → Str → List (Int × Char)
  | [], [] => []
  | [], b :: bs => (1, b) :: charEdits [] bs
  | a :: as, [] => (-1, a) :: charEdits as []
  | a :: as, b :: bs =>
    if a = b then (0, a) :: charEdits as bs
    else
      let dels := (-1, a) :: charEdits as (b :: bs)
      let inss := (1, b) :: charEdits (a :: as) bs
      if editCount dels ≤ editCount inss then dels else inss
termination_by a b => a.length + b.length
decreasing_by all_goals (simp [List.length_cons]; try omega)

/-- Group a character edit script into maximal runs of one operation,
giving the `[op, text]` tuples that `diff_main` returns. -/
def groupEdits : List (Int × Char) → List (Int × Str)
  | [] => []
  | (op, c) :: rest =>
    match groupEdits rest with
    | (op2, t) :: segs =>
      if op = op2 then (op, c :: t) :: segs else (op, [c]) :: (op2, t) :: segs
    | [] => [(op, [c])]

/-- Modelled from the spec: diff-match-patch's `diff_main(oldText, newText)`
(external library).  For equal inputs it returns a single Equal tuple (the
empty list when both inputs are empty); otherwise the LCS-based character
diff, grouped into same-operation runs. -/
def diff_main (a b : Str) : List (Int × Str) :=
  if a = b then (if a = [] then [] else [(0, a)])
  else groupEdits (charEdits a b)

/-- Modelled from the spec: diff-match-patch's `diff_cleanupSemantic`
(external library), the "semantic cleanup pass that merges/reassigns small
fragmented edits".  Modelled as merging adjacent equal-operation tuples,
which preserves the reconstruction invariant the spec states for the
cleaned output. -/
def diff_cleanupSemantic : List (Int × Str) → List (Int × Str)
  | [] => []
  | (op, t) :: rest =>
    match diff_cleanupSemantic rest with
    | (op2, t2) :: segs =>
      if op = op2 then (op, t ++ t2) :: segs else (op, t) :: (op2, t2) :: segs
    | [] => [(op, t)]

/-- Function `calculateDiff` (timeline.tsx lines 51-86).  The three early returns
use JS truthiness (`!oldContent`, `!newContent`) and `===`; the general
path runs `diff_main`, applies `diff_cleanupSemantic`, then sums the
lengths of operation-1 texts into `added` and operation-(-1) texts into
`deleted` with a fold over the tuples. -/
def calculateDiff (oldContent newContent : Str) : Summary :=
  if oldContent = [] then ⟨newContent.length, 0⟩
  else if newContent = [] then ⟨0, oldContent.length⟩
  else if oldContent = newContent then ⟨0, 0⟩
  else
    let diffs := diff_cleanupSemantic (diff_main oldContent newContent)
    diffs.foldl
      (fun s d =>
        if d.1 = 1 then { s with added := s.added + d.2.length }
        else if d.1 = -1 then { s with deleted := s.deleted + d.2.length }
        else s)
      ⟨0, 0⟩

/-- Function `renderDiff` (timeline.tsx lines 92-108): empty `oldContent` gives a
single Insert segment over all of `newContent`; empty `newContent` (with
`oldContent` non-empty) a single Delete segment; otherwise the cleaned
`diff_main` output mapped to `{ operation, text }` records. -/
def renderDiff (oldContent newContent : Str) : List Segment :=
  if oldContent = [] then [⟨1, newContent⟩]
  else if newContent = [] then [⟨-1, oldContent⟩]
  else
    (diff_cleanupSemantic (diff_main oldContent newContent)).map
      (fun d => ⟨d.1, d.2⟩)

def newSide (l : List (Int × Char)) : Str :=
  l.filterMap (fun d => if d.1 = 0 ∨ d.1 = 1 then some d.2 else none)

def oldSide (l : List (Int × Char)) : Str :=
  l.filterMap (fun d => if d.1 = 0 ∨ d.1 = -1 then some d.2 else none)

def diffsNewText (l : List (Int × Str)) : Str :=
  l.foldr (fun d acc => if d.1 = 0 ∨ d.1 = 1 then d.2 ++ acc else acc) []

def diffsOldText (l : List (Int × Str)) : Str :=
  l.foldr (fun d acc => if d.1 = 0 ∨ d.1 = -1 then d.2 ++ acc else acc) []

def eqInsText (segs : List Segment) : Str :=
  segs.foldr (fun s acc => if s.operation = 0 ∨ s.operation = 1 then s.text ++ acc else acc) []

def eqDelText (segs : List Segment) : Str :=
  segs.foldr (fun s acc => if s.operation = 0 ∨ s.operation = -1 then s.text ++ acc else acc) []

/-- Sum of the lengths of the texts of segments with operation 1. -/
def addedLen (segs : List Segment) : Nat :=
  ((segs.filter (fun s => s.operation = 1)).map (fun s => s.text.length)).sum

/-- Sum of the lengths of the texts of segments with operation -1. -/
def deletedLen (segs : List Segment) : Nat :=
  ((segs.filter (fun s => s.operation = -1)).map (fun s => s.text.length)).sum

def addedLenDiffs (l : List (Int × Str)) : Nat :=
  l.foldr (fun d n => if d.1 = 1 then d.2.length + n else n) 0

def deletedLenDiffs (l : List (Int × Str)) : Nat :=
  l.foldr (fun d n => if d.1 = -1 then d.2.length + n else n) 0

/-- JS `text.split("\n")` (timeline.tsx lines 276, 289): split strictly on
the newline character, no trimming; the empty string splits to one empty
chunk, and a trailing newline yields a final empty chunk. -/
def splitNl : Str → List Str
  | [] => [[]]
  | c :: cs =>
    if c = '\n' then [] :: splitNl cs
    else
      match splitNl cs with
      | l :: ls => (c :: l) :: ls
      | [] => [[c]]

/-- Rejoin split chunks with a newline between consecutive chunks. -/
def joinNl : List Str → Str
  | [] => []
  | [l] => l
  | l :: ls => l ++ '\n' :: joinNl ls

/-- The source's indexed map over split lines (timeline.tsx lines 282-284
and 295-297): every line gets the marker prefix, and a `'\n'` terminator
on each line except the last (`lineIdx < lines.length - 1`). -/
def markLines (m : Char) : List Str → List Str
  | [] => []
  | [l] => [m :: l]
  | l :: ls => (m :: l ++ ['\n']) :: markLines m ls

/-- The display marker: `'+'` for Insert segments, `'-'` for Delete. -/
def segMarker (op : Int) : Char := if op = 1 then '+' else '-'

/-- The expanded diff view's rendering of one segment (timeline.tsx lines
273-311): Insert and Delete segments are split on newlines and marked
line-by-line; an Equal segment's text is emitted unsplit. -/
def renderSegmentDisplay (seg : Segment) : List Str :=
  if seg.operation = 1 then markLines '+' (splitNl seg.text)
  else if seg.operation = -1 then markLines '-' (splitNl seg.text)
  else [seg.text]

/-- JS truthiness of a fetched value: `if (content)` records a content only
when the accessor returned a string and that string is non-empty. -/
def canonContent (fetch : String → Option Str) (oid : String) : Option Str :=
  match fetch oid with
  | some c => if c = [] then none else some c
  | none => none

/-- One iteration of the first `loadCommitData` loop (timeline.tsx lines
123-129): `const content = await getPastState(commit.oid); if (content)
contents[commit.oid] = content;` — a record update guarded by JS
truthiness. -/
def recordContent (fetch : String → Option Str) (oid : String)
    (acc : String → Option Str) : String → Option Str :=
  match fetch oid with
  | some c => if c = [] then acc else fun k => if k = oid then some c else acc k
  | none => acc

def buildContentsAux (fetch : String → Option Str) :
    List String → (String → Option Str) → String → Option Str
  | [], acc => acc
  | oid :: rest, acc => buildContentsAux fetch rest (recordContent fetch oid acc)

/-- The `contents` record built by the first `loadCommitData` loop: the
loop runs `i` from `history.length - 1` down to `0`, i.e. over
`history.reverse` in order, starting from the empty record. -/
def buildContents (fetch : String → Option Str) (history : List String) :
    String → Option Str :=
  buildContentsAux fetch history.reverse (fun _ => none)

/-- The second `loadCommitData` loop (timeline.tsx lines 132-151) at index
`i`: no entry is written when the recorded content is missing
(`if (!content) continue`); for `i < history.length - 1` — equivalently,
when `history.get? (i+1)` is `some` — the entry is compared against the
recorded content of the next-older entry via
`calculateDiff(prevContent, content)`, with the fully-added fallback
`{added: content.length, deleted: 0}` when that record is missing; the
oldest entry always gets the fully-added summary. -/
def summaryAt (fetch : String → Option Str) (history : List String) (i : Nat) :
    Option Summary :=
  match history.get? i with
  | none => none
  | some oid =>
    match buildContents fetch history oid with
    | none => none
    | some content =>
      match history.get? (i + 1) with
      | some prevOid =>
        match buildContents fetch history prevOid with
        | some prevContent => some (calculateDiff prevContent content)
        | none => some ⟨content.length, 0⟩
      | none => some ⟨content.length, 0⟩

/-- Each resolved `loadCommitData` run ends in an unconditional
`setCommitContents(contents)` (timeline.tsx line 153); the effect installs
no cancellation for superseded runs, so after several batches resolve the
stored state is simply the record of whichever batch resolved last.
`completions` lists the history value each issued batch closed over, in
the order the batches' async work completes. -/
def finalContents (fetch : String → Option Str)
    (completions : List (List String)) : String → Option Str :=
  completions.foldl (fun _ h => buildContents fetch h) (fun _ => none)

/-- A concrete accessor for witnesses: "a" ↦ "x", "b" ↦ "xy",
"e" ↦ "" (a successful fetch of empty content), everything else absent. -/
def fetchW : String → Option Str := fun oid =>
  if oid = "a" then some ['x']
  else if oid = "b" then some ['x', 'y']
  else if oid = "e" then some []
  else none

@[simp] theorem newSide_nil : newSide [] = [] := rfl

@[simp] theorem newSide_cons (op : Int) (c : Char) (l : List (Int × Char)) :
    newSide ((op, c) :: l) = if op = 0 ∨ op = 1 then c :: newSide l else newSide l := by
  by_cases h : op = 0 ∨ op = 1 <;> simp [newSide, List.filterMap_cons, h]

@[simp] theorem oldSide_nil : oldSide [] = [] := rfl

@[simp] theorem oldSide_cons (op : Int) (c : Char) (l : List (Int × Char)) :
    oldSide ((op, c) :: l) = if op = 0 ∨ op = -1 then c :: oldSide l else oldSide l := by
  by_cases h : op = 0 ∨ op = -1 <;> simp [oldSide, List.filterMap_cons, h]

theorem charEdits_newSide (a b : Str) : newSide (charEdits a b) = b := by
  induction a, b using charEdits.induct with
  | case1 => simp [charEdits]
  | case2 b bs ih => simpa [charEdits] using ih
  | case3 a as ih => simpa [charEdits] using ih
  | case4 as b bs ih => simpa [charEdits] using ih
  | case5 a as b bs hne dels inss hle ih1 ih2 =>
    simp only [charEdits, if_neg hne, if_pos hle]
    simpa using ih1
  | case6 a as b bs hne dels inss hle ih1 ih2 =>
    simp only [charEdits, if_neg hne, if_neg hle]
    simpa using ih2

theorem charEdits_oldSide (a b : Str) : oldSide (charEdits a b) = a := by
  induction a, b using charEdits.induct with
  | case1 => simp [charEdits]
  | case2 b bs ih => simpa [charEdits] using ih
  | case3 a as ih => simpa [charEdits] using ih
  | case4 as b bs ih => simpa [charEdits] using ih
  | case5 a as b bs hne dels inss hle ih1 ih2 =>
    simp only [charEdits, if_neg hne, if_pos hle]
    simpa using ih1
  | case6 a as b bs hne dels inss hle ih1 ih2 =>
    simp only [charEdits, if_neg hne, if_neg hle]
    simpa using ih2

@[simp] theorem diffsNewText_nil : diffsNewText [] = [] := rfl

@[simp] theorem diffsNewText_cons (op : Int) (t : Str) (l : List (Int × Str)) :
    diffsNewText ((op, t) :: l) =
      if op = 0 ∨ op = 1 then t ++ diffsNewText l else diffsNewText l := rfl

@[simp] theorem diffsOldText_nil : diffsOldText [] = [] := rfl

@[simp] theorem diffsOldText_cons (op : Int) (t : Str) (l : List (Int × Str)) :
    diffsOldText ((op, t) :: l) =
      if op = 0 ∨ op = -1 then t ++ diffsOldText l else diffsOldText l := rfl

@[simp] theorem eqInsText_nil : eqInsText [] = [] := rfl

@[simp] theorem eqInsText_cons (s : Segment) (segs : List Segment) :
    eqInsText (s :: segs) =
      if s.operation = 0 ∨ s.operation = 1 then s.text ++ eqInsText segs
      else eqInsText segs := rfl

@[simp] theorem eqDelText_nil : eqDelText [] = [] := rfl

@[simp] theorem eqDelText_cons (s : Segment) (segs : List Segment) :
    eqDelText (s :: segs) =
      if s.operation = 0 ∨ s.operation = -1 then s.text ++ eqDelText segs
      else eqDelText segs := rfl

theorem groupEdits_newText (l : List (Int × Char)) :
    diffsNewText (groupEdits l) = newSide l := by
  induction l with
  | nil => rfl
  | cons d rest ih =>
    obtain ⟨op, c⟩ := d
    cases hg : groupEdits rest with
    | nil =>
      rw [hg] at ih
      by_cases hop : op = 0 ∨ op = 1 <;> simp [groupEdits, hg, hop, ← ih]
    | cons d2 segs =>
      obtain ⟨op2, t⟩ := d2
      rw [hg] at ih
      by_cases heq : op = op2
      · subst heq
        by_cases hop : op = 0 ∨ op = 1 <;> simp [groupEdits, hg, hop, ← ih]
      · by_cases hop : op = 0 ∨ op = 1 <;> simp [groupEdits, hg, heq, hop, ← ih]

theorem groupEdits_oldText (l : List (Int × Char)) :
    diffsOldText (groupEdits l) = oldSide l := by
  induction l with
  | nil => rfl
  | cons d rest ih =>
    obtain ⟨op, c⟩ := d
    cases hg : groupEdits rest with
    | nil =>
      rw [hg] at ih
      by_cases hop : op = 0 ∨ op = -1 <;> simp [groupEdits, hg, hop, ← ih]
    | cons d2 segs =>
      obtain ⟨op2, t⟩ := d2
      rw [hg] at ih
      by_cases heq : op = op2
      · subst heq
        by_cases hop : op = 0 ∨ op = -1 <;> simp [groupEdits, hg, hop, ← ih]
      · by_cases hop : op = 0 ∨ op = -1 <;> simp [groupEdits, hg, heq, hop, ← ih]

theorem cleanup_newText (l : List (Int × Str)) :
    diffsNewText (diff_cleanupSemantic l) = diffsNewText l := by
  induction l with
  | nil => rfl
  | cons d rest ih =>
    obtain ⟨op, t⟩ := d
    cases hg : diff_cleanupSemantic rest with
    | nil =>
      rw [hg] at ih
      by_cases hop : op = 0 ∨ op = 1 <;> simp [diff_cleanupSemantic, hg, hop, ← ih]
    | cons d2 segs =>
      obtain ⟨op2, t2⟩ := d2
      rw [hg] at ih
      by_cases heq : op = op2
      · subst heq
        by_cases hop : op = 0 ∨ op = 1 <;> simp [diff_cleanupSemantic, hg, hop, ← ih]
      · by_cases hop : op = 0 ∨ op = 1 <;>
          simp [diff_cleanupSemantic, hg, heq, hop, ← ih]

theorem cleanup_oldText (l : List (Int × Str)) :
    diffsOldText (diff_cleanupSemantic l) = diffsOldText l := by
  induction l with
  | nil => rfl
  | cons d rest ih =>
    obtain ⟨op, t⟩ := d
    cases hg : diff_cleanupSemantic rest with
    | nil =>
      rw [hg] at ih
      by_cases hop : op = 0 ∨ op = -1 <;> simp [diff_cleanupSemantic, hg, hop, ← ih]
    | cons d2 segs =>
      obtain ⟨op2, t2⟩ := d2
      rw [hg] at ih
      by_cases heq : op = op2
      · subst heq
        by_cases hop : op = 0 ∨ op = -1 <;> simp [diff_cleanupSemantic, hg, hop, ← ih]
      · by_cases hop : op = 0 ∨ op = -1 <;>
          simp [diff_cleanupSemantic, hg, heq, hop, ← ih]

theorem eqInsText_map (l : List (Int × Str)) :
    eqInsText (l.map (fun d => (⟨d.1, d.2⟩ : Segment))) = diffsNewText l := by
  induction l with
  | nil => rfl
  | cons d rest ih => obtain ⟨op, t⟩ := d; simp [ih]

theorem eqDelText_map (l : List (Int × Str)) :
    eqDelText (l.map (fun d => (⟨d.1, d.2⟩ : Segment))) = diffsOldText l := by
  induction l with
  | nil => rfl
  | cons d rest ih => obtain ⟨op, t⟩ := d; simp [ih]

theorem diff_main_newText (a b : Str) : diffsNewText (diff_main a b) = b := by
  unfold diff_main
  by_cases h : a = b
  · subst h
    by_cases ha : a = [] <;> simp [ha]
  · simp [h, groupEdits_newText, charEdits_newSide]

theorem diff_main_oldText (a b : Str) : diffsOldText (diff_main a b) = a := by
  unfold diff_main
  by_cases h : a = b
  · subst h
    by_cases ha : a = [] <;> simp [ha]
  · simp [h, groupEdits_oldText, charEdits_oldSide]

/-- C2: in `renderDiff oldText newText`, the Equal+Insert texts concatenate
to `newText` and the Equal+Delete texts concatenate to `oldText`. -/
theorem renderDiff_reconstruction (oldText newText : Str) :
    eqInsText (renderDiff oldText newText) = newText ∧
    eqDelText (renderDiff oldText newText) = oldText := by
  unfold renderDiff
  by_cases ho : oldText = []
  · simp [ho]
  · by_cases hn : newText = []
    · simp [ho, hn]
    · simp only [if_neg ho, if_neg hn]
      constructor
      · rw [eqInsText_map, cleanup_newText, diff_main_newText]
      · rw [eqDelText_map, cleanup_oldText, diff_main_oldText]

theorem calcFold_eval (l : List (Int × Str)) (s : Summary) :
    l.foldl
      (fun s d =>
        if d.1 = 1 then { s with added := s.added + d.2.length }
        else if d.1 = -1 then { s with deleted := s.deleted + d.2.length }
        else s)
      s
    = ⟨s.added + addedLenDiffs l, s.deleted + deletedLenDiffs l⟩ := by
  induction l generalizing s with
  | nil => simp [addedLenDiffs, deletedLenDiffs]
  | cons d rest ih =>
    obtain ⟨op, t⟩ := d
    by_cases h1 : op = 1
    · simp [h1, List.foldl_cons, ih, addedLenDiffs, deletedLenDiffs]
      try omega
    · by_cases h2 : op = -1 <;>
        · simp [h1, h2, List.foldl_cons, ih, addedLenDiffs, deletedLenDiffs]
          try omega

theorem addedLen_map (l : List (Int × Str)) :
    addedLen (l.map (fun d => (⟨d.1, d.2⟩ : Segment))) = addedLenDiffs l := by
  induction l with
  | nil => rfl
  | cons d rest ih =>
    obtain ⟨op, t⟩ := d
    by_cases h : op = 1 <;> simp [addedLen, addedLenDiffs, h] at ih ⊢ <;> omega

theorem deletedLen_map (l : List (Int × Str)) :
    deletedLen (l.map (fun d => (⟨d.1, d.2⟩ : Segment))) = deletedLenDiffs l := by
  induction l with
  | nil => rfl
  | cons d rest ih =>
    obtain ⟨op, t⟩ := d
    by_cases h : op = -1 <;> simp [deletedLen, deletedLenDiffs, h] at ih ⊢ <;> omega

/-- C1: `calculateDiff a b` agrees with the segments of `renderDiff a b`:
`added` is the total length of operation-1 texts and `deleted` the total
length of operation-(-1) texts. -/
theorem calculateDiff_agrees_renderDiff (a b : Str) :
    (calculateDiff a b).added = addedLen (renderDiff a b) ∧
    (calculateDiff a b).deleted = deletedLen (renderDiff a b) := by
  unfold calculateDiff renderDiff
  by_cases ho : a = []
  · simp [ho, addedLen, deletedLen]
  · by_cases hn : b = []
    · simp [ho, hn, addedLen, deletedLen]
    · by_cases he : a = b
      · subst he
        simp [ho, hn, diff_main, diff_cleanupSemantic, addedLen, deletedLen]
      · simp only [if_neg ho, if_neg hn, if_neg he]
        rw [calcFold_eval, addedLen_map, deletedLen_map]
        simp

/-- C9: `renderDiff` and `calculateDiff` are deterministic — two calls on
equal inputs return identical outputs; the result depends only on the two
input strings. -/
theorem diff_deterministic (o1 n1 o2 n2 : Str) (ho : o1 = o2) (hn : n1 = n2) :
    renderDiff o1 n1 = renderDiff o2 n2 ∧
    calculateDiff o1 n1 = calculateDiff o2 n2 := by
  subst ho
  subst hn
  exact ⟨rfl, rfl⟩

/-- Witness for C9 at a concrete input pair. -/
theorem diff_deterministic_witness :
    renderDiff ['a'] ['b'] = renderDiff ['a'] ['b'] ∧
    calculateDiff ['a'] ['b'] = calculateDiff ['a'] ['b'] :=
  diff_deterministic ['a'] ['b'] ['a'] ['b'] rfl rfl

/-- C4 counterexample: at s = "" the claim demands an empty segment
sequence from `renderDiff(s, s)`, but the code's `!oldContent` early
return yields a single Insert segment with empty text. -/
theorem renderDiff_self_counterexample :
    renderDiff [] [] = [⟨1, []⟩] ∧ renderDiff [] [] ≠ [] :=
  ⟨rfl, by decide⟩

/-- C4 amended: `renderDiff s s` is a single Equal segment with text s for
non-empty s, and a single Insert segment with empty text (not the empty
sequence) for empty s; `calculateDiff s s = {0, 0}` for every s. -/
theorem renderDiff_self (s : Str) :
    (s ≠ [] → renderDiff s s = [⟨0, s⟩]) ∧
    (s = [] → renderDiff s s = [⟨1, []⟩]) ∧
    calculateDiff s s = ⟨0, 0⟩ := by
  refine ⟨?_, ?_, ?_⟩
  · intro hs
    unfold renderDiff
    simp [hs, diff_main, diff_cleanupSemantic]
  · intro hs
    subst hs
    rfl
  · unfold calculateDiff
    by_cases hs : s = [] <;> simp [hs]

/-- Witness for the amended C4 at s = "a". -/
theorem renderDiff_self_witness :
    ((['a'] : Str) ≠ [] ∧ renderDiff ['a'] ['a'] = [⟨0, ['a']⟩]) ∧
    calculateDiff ['a'] ['a'] = ⟨0, 0⟩ :=
  ⟨⟨by decide, (renderDiff_self ['a']).1 (by decide)⟩, (renderDiff_self ['a']).2.2⟩

/-- C5 counterexample: at s = "" the claim demands an empty segment
sequence from `renderDiff("", s)`, but the code returns a single Insert
segment with empty text. -/
theorem renderDiff_emptyOld_counterexample :
    renderDiff [] [] ≠ ([] : List Segment) := by decide

/-- C5 amended: `renderDiff [] s` is a single Insert segment with text s
for every s — including s = "", where the result is a one-element list
holding the empty text rather than the empty sequence; the summary part
of the claim holds unchanged. -/
theorem renderDiff_emptyOld (s : Str) :
    renderDiff [] s = [⟨1, s⟩] ∧ calculateDiff [] s = ⟨s.length, 0⟩ :=
  ⟨rfl, rfl⟩

/-- C6 counterexample: at s = "" the claim demands a single Delete segment
from `renderDiff(s, "")`, but the `!oldContent` early return fires first
and yields a single Insert segment with empty text. -/
theorem renderDiff_emptyNew_counterexample :
    renderDiff [] [] = [⟨1, ([] : Str)⟩] ∧ renderDiff [] [] ≠ [⟨-1, ([] : Str)⟩] :=
  ⟨rfl, by decide⟩

/-- C6 amended: for non-empty s, `renderDiff s []` is a single Delete
segment with text s (for s = "" the Insert early return wins instead);
`calculateDiff s [] = {added: 0, deleted: |s|}` for every s. -/
theorem renderDiff_emptyNew (s : Str) :
    (s ≠ [] → renderDiff s [] = [⟨-1, s⟩]) ∧
    calculateDiff s [] = ⟨0, s.length⟩ := by
  constructor
  · intro hs
    simp [renderDiff, hs]
  · unfold calculateDiff
    by_cases hs : s = [] <;> simp [hs]

/-- Witness for the amended C6 at s = "a". -/
theorem renderDiff_emptyNew_witness :
    ((['a'] : Str) ≠ [] ∧ renderDiff ['a'] [] = [⟨-1, ['a']⟩]) ∧
    calculateDiff ['a'] [] = ⟨0, 1⟩ :=
  ⟨⟨by decide, (renderDiff_emptyNew ['a']).1 (by decide)⟩, (renderDiff_emptyNew ['a']).2⟩

theorem splitNl_ne_nil (s : Str) : splitNl s ≠ [] := by
  cases s with
  | nil => simp [splitNl]
  | cons c cs =>
    by_cases h : c = '\n'
    · simp [splitNl, h]
    · simp only [splitNl, if_neg h]
      cases splitNl cs <;> simp

theorem splitNl_length (s : Str) : (splitNl s).length = s.count '\n' + 1 := by
  induction s with
  | nil => simp [splitNl]
  | cons c cs ih =>
    by_cases h : c = '\n'
    · simp [splitNl, h, List.count_cons, ih]
    · simp only [splitNl, if_neg h]
      cases hg : splitNl cs with
      | nil => exact absurd hg (splitNl_ne_nil cs)
      | cons l ls =>
        rw [hg] at ih
        simp only [List.length_cons] at ih ⊢
        simp [List.count_cons, h, ih]

theorem joinNl_splitNl (s : Str) : joinNl (splitNl s) = s := by
  induction s with
  | nil => rfl
  | cons c cs ih =>
    by_cases h : c = '\n'
    · subst h
      simp only [splitNl, if_pos rfl]
      cases hg : splitNl cs with
      | nil => exact absurd hg (splitNl_ne_nil cs)
      | cons l ls =>
        rw [hg] at ih
        simpa [joinNl] using ih
    · simp only [splitNl, if_neg h]
      cases hg : splitNl cs with
      | nil => exact absurd hg (splitNl_ne_nil cs)
      | cons l ls =>
        rw [hg] at ih
        cases ls with
        | nil => simpa [joinNl] using ih
        | cons l2 ls2 => simpa [joinNl] using ih

theorem markLines_length (m : Char) (ls : List Str) :
    (markLines m ls).length = ls.length := by
  induction ls with
  | nil => rfl
  | cons l ls ih =>
    cases ls with
    | nil => rfl
    | cons l2 ls2 => simpa [markLines] using ih

theorem markLines_prefixed (m : Char) (ls : List Str) :
    ∀ l ∈ markLines m ls, ∃ t, l = m :: t := by
  induction ls with
  | nil => simp [markLines]
  | cons l ls ih =>
    cases ls with
    | nil =>
      intro x hx
      simp only [markLines, List.mem_singleton] at hx
      exact ⟨l, hx⟩
    | cons l2 ls2 =>
      intro x hx
      simp only [markLines, List.mem_cons] at hx
      rcases hx with hx | hx
      · exact ⟨l ++ ['\n'], hx⟩
      · exact ih x hx

theorem markLines_tails_join (m : Char) (ls : List Str) :
    ((markLines m ls).map List.tail).foldr (fun a b => a ++ b) [] = joinNl ls := by
  induction ls with
  | nil => rfl
  | cons l ls ih =>
    cases ls with
    | nil => simp [markLines, joinNl]
    | cons l2 ls2 =>
      simp only [markLines, List.map_cons, List.foldr_cons, List.tail_cons] at ih ⊢
      rw [ih]
      simp [joinNl]

/-- C7: an Insert or Delete segment whose text holds k newlines is
displayed as exactly k+1 lines, each starting with its marker ('+' or
'-'), and stripping the marker from each displayed line and rejoining
recovers the segment text — the trailing-newline empty line included. -/
theorem renderSegmentDisplay_spec (seg : Segment)
    (h : seg.operation = 1 ∨ seg.operation = -1) :
    (renderSegmentDisplay seg).length = seg.text.count '\n' + 1 ∧
    (∀ l ∈ renderSegmentDisplay seg, ∃ t, l = segMarker seg.operation :: t) ∧
    ((renderSegmentDisplay seg).map List.tail).foldr (fun a b => a ++ b) []
      = seg.text := by
  rcases h with h | h <;>
    simp only [renderSegmentDisplay, segMarker, h] <;> norm_num <;>
    exact ⟨by rw [markLines_length, splitNl_length],
           markLines_prefixed _ _,
           by rw [markLines_tails_join, joinNl_splitNl]⟩

/-- Witness for C7 at the Insert segment with text "a\n". -/
theorem renderSegmentDisplay_spec_witness :
    ((1 : Int) = 1 ∨ (1 : Int) = -1) ∧
    ((renderSegmentDisplay ⟨1, ['a', '\n']⟩).length
        = (['a', '\n'] : Str).count '\n' + 1 ∧
     (∀ l ∈ renderSegmentDisplay ⟨1, ['a', '\n']⟩, ∃ t, l = segMarker 1 :: t) ∧
     ((renderSegmentDisplay ⟨1, ['a', '\n']⟩).map List.tail).foldr
        (fun a b => a ++ b) [] = ['a', '\n']) :=
  ⟨Or.inl rfl, renderSegmentDisplay_spec ⟨1, ['a', '\n']⟩ (Or.inl rfl)⟩

theorem recordContent_eval (fetch : String → Option Str) (oid k : String)
    (acc : String → Option Str) :
    recordContent fetch oid acc k =
      if k = oid then (canonContent fetch k).elim (acc k) some else acc k := by
  by_cases hko : k = oid
  · subst hko
    unfold recordContent canonContent
    cases hf : fetch k with
    | none => simp
    | some c => by_cases hc : c = [] <;> simp [hc]
  · unfold recordContent
    cases hf : fetch oid with
    | none => simp [hko]
    | some c => by_cases hc : c = [] <;> simp [hc, hko]

theorem buildContentsAux_eval (fetch : String → Option Str) (l : List String)
    (acc : String → Option Str) (k : String) :
    buildContentsAux fetch l acc k =
      if k ∈ l then (canonContent fetch k).elim (acc k) some else acc k := by
  induction l generalizing acc with
  | nil => simp [buildContentsAux]
  | cons oid rest ih =>
    simp only [buildContentsAux]
    rw [ih, recordContent_eval]
    by_cases hkr : k ∈ rest <;> by_cases hko : k = oid <;>
      cases hck : canonContent fetch k <;>
        simp [hkr, hko, hck, List.mem_cons]

theorem buildContents_eval (fetch : String → Option Str) (history : List String)
    (k : String) :
    buildContents fetch history k =
      if k ∈ history then canonContent fetch k else none := by
  unfold buildContents
  rw [buildContentsAux_eval]
  by_cases hk : k ∈ history <;>
    cases hck : canonContent fetch k <;>
      simp [List.mem_reverse, hk, hck]

/-- C3: for an entry at position i whose fetch returned (truthy) content c:
with no entry at i+1 (oldest entry) its summary is the fully-added
`{added: |c|, deleted: 0}`; when the entry at i+1 has fetched content c2
the summary is `calculateDiff c2 c`; and when the fetch for the entry at
i+1 is absent the summary falls back to the fully-added value. -/
theorem summaryAt_spec (fetch : String → Option Str) (history : List String)
    (i : Nat) (oid : String) (c : Str)
    (hi : history.get? i = some oid) (hf : fetch oid = some c) (hc : c ≠ []) :
    (history.get? (i + 1) = none →
      summaryAt fetch history i = some ⟨c.length, 0⟩) ∧
    (∀ oid2 c2, history.get? (i + 1) = some oid2 → fetch oid2 = some c2 →
      c2 ≠ [] → summaryAt fetch history i = some (calculateDiff c2 c)) ∧
    (∀ oid2, history.get? (i + 1) = some oid2 → fetch oid2 = none →
      summaryAt fetch history i = some ⟨c.length, 0⟩) := by
  have hb : buildContents fetch history oid = some c := by
    rw [buildContents_eval]
    simp [List.get?_mem hi, canonContent, hf, hc]
  refine ⟨?_, ?_, ?_⟩
  · intro hnone
    simp only [List.get?_eq_getElem?] at hi hnone
    simp [summaryAt, hi, hb, hnone]
  · intro oid2 c2 h2 hf2 hc2
    have hb2 : buildContents fetch history oid2 = some c2 := by
      rw [buildContents_eval]
      simp [List.get?_mem h2, canonContent, hf2, hc2]
    simp only [List.get?_eq_getElem?] at hi h2
    simp [summaryAt, hi, hb, h2, hb2]
  · intro oid2 h2 hf2
    have hb2 : buildContents fetch history oid2 = none := by
      rw [buildContents_eval]
      simp [canonContent, hf2]
    simp only [List.get?_eq_getElem?] at hi h2
    simp [summaryAt, hi, hb, h2, hb2]

/-- Witness for C3 on history ["b", "a"] (newest first) with fetchW. -/
theorem summaryAt_spec_witness :
    ((["b", "a"] : List String).get? 0 = some "b" ∧
      fetchW "b" = some ['x', 'y'] ∧ (['x', 'y'] : Str) ≠ []) ∧
    ((["b", "a"] : List String).get? (0 + 1) = none →
      summaryAt fetchW ["b", "a"] 0 = some ⟨(['x', 'y'] : Str).length, 0⟩) ∧
    (∀ oid2 c2, (["b", "a"] : List String).get? (0 + 1) = some oid2 →
      fetchW oid2 = some c2 → c2 ≠ [] →
      summaryAt fetchW ["b", "a"] 0 = some (calculateDiff c2 ['x', 'y'])) ∧
    (∀ oid2, (["b", "a"] : List String).get? (0 + 1) = some oid2 →
      fetchW oid2 = none →
      summaryAt fetchW ["b", "a"] 0 = some ⟨(['x', 'y'] : Str).length, 0⟩) :=
  ⟨⟨rfl, rfl, by decide⟩,
    summaryAt_spec fetchW ["b", "a"] 0 "b" ['x', 'y'] rfl rfl (by decide)⟩

/-- C10: an entry whose fetch resolved to the empty string is handled like
an absent fetch: no content is recorded for it, it gets no summary, and
the next-newer entry (position j with j+1 = i) falls back to its
fully-added summary even though the fetch for entry i succeeded. -/
theorem emptyContent_like_absent (fetch : String → Option Str)
    (history : List String) (i : Nat) (oid : String)
    (hi : history.get? i = some oid) (hf : fetch oid = some []) :
    buildContents fetch history oid = none ∧
    summaryAt fetch history i = none ∧
    (∀ j oidj cj, history.get? j = some oidj → j + 1 = i →
      fetch oidj = some cj → cj ≠ [] →
      summaryAt fetch history j = some ⟨cj.length, 0⟩) := by
  have hbo : buildContents fetch history oid = none := by
    rw [buildContents_eval]
    by_cases hm : oid ∈ history <;> simp [hm, canonContent, hf]
  refine ⟨hbo, ?_, ?_⟩
  · have hi2 := hi
    simp only [List.get?_eq_getElem?] at hi2
    simp [summaryAt, hi2, hbo]
  · intro j oidj cj hj hji hfj hcj
    have hbj : buildContents fetch history oidj = some cj := by
      rw [buildContents_eval]
      simp [List.get?_mem hj, canonContent, hfj, hcj]
    subst hji
    simp only [List.get?_eq_getElem?] at hj hi
    simp [summaryAt, hj, hbj, hi, hbo]

/-- Witness for C10 on history ["b", "e"] with fetchW ("e" fetches ""). -/
theorem emptyContent_like_absent_witness :
    ((["b", "e"] : List String).get? 1 = some "e" ∧ fetchW "e" = some []) ∧
    (buildContents fetchW ["b", "e"] "e" = none ∧
     summaryAt fetchW ["b", "e"] 1 = none ∧
     (∀ j oidj cj, (["b", "e"] : List String).get? j = some oidj → j + 1 = 1 →
       fetchW oidj = some cj → cj ≠ [] →
       summaryAt fetchW ["b", "e"] j = some ⟨cj.length, 0⟩)) :=
  ⟨⟨rfl, rfl⟩, emptyContent_like_absent fetchW ["b", "e"] 1 "e" rfl rfl⟩

/-- C8, evaluated at the failing input: the batch for the superseded
history ["a"] resolves after the batch for the current history
["b", "a"]; the stored contents end up being the stale batch's record,
which lacks "b" — stale results are applied (last resolution wins), not
discarded. -/
theorem staleBatch_overwrites :
    finalContents fetchW [["b", "a"], ["a"]] "b" = none ∧
    buildContents fetchW ["b", "a"] "b" = some ['x', 'y'] ∧
    finalContents fetchW [["b", "a"], ["a"]] "b"
      ≠ buildContents fetchW ["b", "a"] "b" := by
  refine ⟨by decide, by decide, by decide⟩
